import Mathlib

/-!
Verification of the mutation-algebra and tree-statistics core of the BTE
repository (src/src/mat.pyx) against its natural-language specification.

The Cython file wraps an external C++ mutation-annotated-tree engine.  The
core algorithms under verification (`complement`, `accumulate_mutations`,
`count_haplotypes`, `compute_nucleotide_diversity`, `simple_parsimony`,
`reverse_strand`) live in mat.pyx and are embedded below.  Engine
operations that mat.pyx merely calls (depth-first expansion, rsearch,
leaf-id listing, polytomy resolution, `Mutation.get_string`) are not part
of the repository's sources; those are modelled from the specification and
are marked as such in their doc comments.

Machine integers: mutation positions are C `int` and base codes are
`int8_t`; all arithmetic performed on them here (`genome_size - position
- 1`, table lookups) stays far from the width limits for the values the
program handles, so they are modelled as unbounded `Int`.
-/

set_option autoImplicit false

namespace BTE

/-- A single mutation record, after `mat.Mutation` as used by mat.pyx:
a genomic `position` (C `int`) and three one-hot base codes (`int8_t`):
the reference base `ref_nuc`, the parent base `par_nuc` and the mutated
base `mut_nuc`.  Fields of the C++ class that mat.pyx never reads or
writes (chromosome, etc.) are omitted. -/
structure Mut where
  position : Int
  ref_nuc : Int
  par_nuc : Int
  mut_nuc : Int
deriving DecidableEq, Repr

/-- Embedding of `complement` (mat.pyx lines 53-63): A(0b1) maps to
T(0b1000) and back, C(0b10) maps to G(0b100) and back, and any other
code is returned unchanged. -/
def complement (input : Int) : Int :=
  if input = 0b1 then 0b1000
  else if input = 0b1000 then 0b1
  else if input = 0b10 then 0b100
  else if input = 0b100 then 0b10
  else input

/-- Modelled from the spec: the base-code to letter table underlying the
canonical mutation string (spec section 3: bases A, C, G, T are one-hot
codes; the canonical string form is ref, position, mut).  The rendering
itself (`Mutation.get_string`) is implemented by the external C++ engine,
not by mat.pyx. -/
def baseChar (code : Int) : Char :=
  if code = 0b1 then 'A'
  else if code = 0b10 then 'C'
  else if code = 0b100 then 'G'
  else if code = 0b1000 then 'T'
  else 'N'

/-- Modelled from the spec: `Mutation.get_string`, the canonical string
form `<ref_base><position><mutant_base>` of a mutation (spec section 3).
The C++ implementation is external to the repository. -/
def get_string (m : Mut) : String :=
  String.mk (baseChar m.ref_nuc :: (toString m.position).toList ++ [baseChar m.mut_nuc])

/-- A node of the mutation-annotated tree: identifier, the mutations on
the edge from its parent, and its children (spec section 3, `Node`).
`parent` back-references are traversal-only and are not represented;
a node is a leaf iff `children` is empty. -/
inductive MTree where
  | node (id : String) (mutations : List Mut) (children : List MTree)
deriving Repr

/-- Identifier accessor of a node. -/
def MTree.id : MTree → String
  | .node i _ _ => i

/-- Mutation-list accessor of a node. -/
def MTree.mutations : MTree → List Mut
  | .node _ m _ => m

/-- Children accessor of a node. -/
def MTree.children : MTree → List MTree
  | .node _ _ cs => cs

/-- `Node.is_leaf`: true iff the node has no children. -/
def MTree.is_leaf (t : MTree) : Bool :=
  t.children.isEmpty

mutual
/-- Modelled from the spec: `Tree.depth_first_expansion`, the pre-order
depth-first traversal supplied by the external tree engine (spec section
6: depth-first-traversal yields the node first, then its descendants). -/
def dfe : MTree → List MTree
  | .node i m cs => .node i m cs :: dfeList cs

/-- Pre-order expansions of a list of sibling subtrees, concatenated in
order. -/
def dfeList : List MTree → List MTree
  | [] => []
  | c :: cs => dfe c ++ dfeList cs
end

/-- Identifiers of all nodes of a tree in pre-order. -/
def allIds (t : MTree) : List String :=
  (dfe t).map MTree.id

/-- Identifiers of all nodes of a sibling list in pre-order. -/
def allIdsList (cs : List MTree) : List String :=
  (dfeList cs).map MTree.id

mutual
/-- Identifiers of the leaves of a tree, in traversal order (spec section
6: all-leaf-ids, as produced by the engine's `get_leaves_ids`). -/
def leafIds : MTree → List String
  | .node i _ [] => [i]
  | .node _ _ (c :: cs) => leafIds c ++ leafIdsList cs

/-- Leaf identifiers of a sibling list, concatenated in order. -/
def leafIdsList : List MTree → List String
  | [] => []
  | c :: cs => leafIds c ++ leafIdsList cs
end

mutual
/-- Identifiers of the internal (non-leaf) nodes of a tree. -/
def internalIds : MTree → List String
  | .node _ _ [] => []
  | .node i _ (c :: cs) => i :: internalIdsList (c :: cs)

/-- Internal-node identifiers of a sibling list, concatenated in order. -/
def internalIdsList : List MTree → List String
  | [] => []
  | c :: cs => internalIds c ++ internalIdsList cs
end

/-- Number of leaves of the tree, as `Tree.get_num_leaves` reports it
(`count_leaves` in mat.pyx). -/
def leafCount (t : MTree) : Nat :=
  (leafIds t).length

/-! ## Strand reverser (`reverse_strand`, mat.pyx lines 356-374) -/

/-- The per-mutation transform of `reverse_strand`: `newmut` is a copy of
the mutation with all three base codes complemented and its position
replaced by `genome_size - position - 1`. -/
def revMut (genome_size : Int) (m : Mut) : Mut :=
  { position := genome_size - m.position - 1
    ref_nuc := complement m.ref_nuc
    par_nuc := complement m.par_nuc
    mut_nuc := complement m.mut_nuc }

mutual
/-- Embedding of `reverse_strand`: the Cython code walks the depth-first
expansion and replaces each node's mutation list in place by the list of
transformed mutations, preserving list order; since the expansion visits
every node exactly once, the in-place loop is the per-node map below.
The code performs no validation of `genome_size`. -/
def reverse_strand : MTree → Int → MTree
  | .node i m cs, genome_size =>
    .node i (m.map (revMut genome_size)) (reverse_strandList cs genome_size)

/-- `reverse_strand` applied to each sibling subtree. -/
def reverse_strandList : List MTree → Int → List MTree
  | [], _ => []
  | c :: cs, genome_size => reverse_strand c genome_size :: reverse_strandList cs genome_size
end

/-! ## Diff engine (`accumulate_mutations`, mat.pyx lines 261-278) -/

/-- The reciprocal of a mutation string on its character list:
`mname[-1] + mname[1:-1] + mname[0]` swaps the first and last characters.
On the empty list the Python slicing would raise; canonical mutation
strings are never empty. -/
def oppoL : List Char → List Char
  | [] => []
  | c :: cs => cs.getLastD c :: (cs.dropLast ++ [c])

/-- The reciprocal mutation string `oppo = mname[-1] + mname[1:-1] + mname[0]`
computed by `accumulate_mutations`. -/
def oppo (s : String) : String :=
  String.mk (oppoL s.toList)

/-- One inner-loop iteration of `accumulate_mutations` on the running
Python set `allm`, modelled as a duplicate-free list: if the reciprocal of
the mutation string is present it is removed and the entry skipped,
otherwise the string itself is added (set insertion: a no-op when already
present). -/
def accStep (allm : List String) (mname : String) : List String :=
  if oppo mname ∈ allm then allm.erase (oppo mname)
  else if mname ∈ allm then allm
  else allm ++ [mname]

/-- Embedding of `accumulate_mutations`: fold over the root-to-sample
path (the engine's `rsearch(sample, True)` output reversed), processing
each ancestor's mutation strings in list order. -/
def accumulate_mutations (path : List (List String)) : List String :=
  path.foldl (fun allm ms => ms.foldl accStep allm) []

/-! ## Haplotype aggregator (`count_haplotypes`, mat.pyx lines 280-292) -/

/-- The haplotype-table key `tuple(sorted(smset))`: the divergence set
sorted lexicographically.  Python's `sorted` is modelled by insertion
sort; since string order is linear, any sorting algorithm produces the
same list. -/
def sortedKey (s : List String) : List String :=
  s.insertionSort (· ≤ ·)

/-- One `divtrack` update: `if smkey not in divtrack: divtrack[smkey] = 0;
divtrack[smkey] += 1`.  The Python dict is modelled as an insertion-ordered
association list with unique keys. -/
def bump : List (List String × Nat) → List String → List (List String × Nat)
  | [], k => [(k, 1)]
  | (k', c) :: rest, k => if k' = k then (k', c + 1) :: rest else (k', c) :: bump rest k

mutual
/-- Modelled from the spec: the root-to-leaf paths of per-node mutation
string lists, one per leaf in traversal order.  This packages the engine's
`get_leaves_ids` together with, for each leaf, the reversed
`rsearch(sample, True)` ancestor walk that `accumulate_mutations`
consumes (spec sections 4.2-4.3 and 6). -/
def leafPathsT : MTree → List (String × List (List String))
  | .node i m [] => [(i, [m.map get_string])]
  | .node _ m (c :: cs) =>
    (leafPathsT c ++ leafPathsList cs).map (fun q => (q.1, m.map get_string :: q.2))

/-- Leaf paths of a sibling list, concatenated in order (without the
common ancestors above them). -/
def leafPathsList : List MTree → List (String × List (List String))
  | [] => []
  | c :: cs => leafPathsT c ++ leafPathsList cs
end

/-- The tree held by a `MATree` object: the default constructor produces
an engine tree with no nodes (`none`); a loaded tree is `some` root. -/
def leafData : Option MTree → List (String × List (List String))
  | none => []
  | some t => leafPathsT t

/-- Embedding of `count_haplotypes`: for each leaf, accumulate its
divergence set, key it by the sorted tuple and count occurrences. -/
def count_haplotypes (t : Option MTree) : List (List String × Nat) :=
  (leafData t).foldl (fun d q => bump d (sortedKey (accumulate_mutations q.2))) []

/-! ## Diversity estimator (`compute_nucleotide_diversity`, mat.pyx 294-321) -/

/-- The inner helper `count_differences(l1, l2)`: the number of elements
of `l1` missing from `l2` plus the number of elements of `l2` missing
from `l1`, computed via the count of matched elements. -/
def count_differences (l1 l2 : List String) : Nat :=
  let total_matched := l1.countP (fun e => decide (e ∈ l2))
  (l1.length - total_matched) + (l2.length - total_matched)

/-- Sum of the haplotype counts, `sum(divtrack.values())`. -/
def sumVals (d : List (List String × Nat)) : Nat :=
  (d.map Prod.snd).sum

/-- The double loop accumulating `pair_diff * g1_freq * g2_freq` over all
ordered pairs of distinct haplotype keys. -/
def divSum (dt : List (List String × Nat)) (total_seq : Nat) : ℚ :=
  (dt.map (fun g1 =>
    (dt.map (fun g2 =>
      if g1.1 ≠ g2.1 then
        (count_differences g1.1 g2.1 : ℚ) * ((g1.2 : ℚ) / (total_seq : ℚ)) * ((g2.2 : ℚ) / (total_seq : ℚ))
      else 0)).sum)).sum

/-- Embedding of `compute_nucleotide_diversity`.  Python raises
`ZeroDivisionError` (modelled as `none`) exactly when a division by zero
is executed: the per-haplotype frequency divisions divide by `total_seq`
and run iff the table is non-empty, and the final bias correction divides
by `total_seq - 1`. -/
def compute_nucleotide_diversity (t : Option MTree) : Option ℚ :=
  let divtrack := count_haplotypes t
  let total_seq := sumVals divtrack
  if divtrack ≠ [] ∧ total_seq = 0 then none
  else if total_seq = 1 then none
  else some (divSum divtrack total_seq * ((total_seq : ℚ) / ((total_seq : ℚ) - 1)))

/-! ## Parsimony solver (`simple_parsimony`, mat.pyx lines 323-348) -/

/-- The `node_assignment_set` Python dict, modelled as an association
list where the most recent binding is looked up first. -/
abbrev Dict : Type := List (String × Finset ℕ)

/-- First-match association-list lookup: the Python dict read
`node_assignment_set[k]`, raising `KeyError` (here `none`) when absent. -/
def alookup : List (String × Finset ℕ) → String → Option (Finset ℕ)
  | [], _ => none
  | (k, v) :: rest, x => if x = k then some v else alookup rest x

/-- The seeding `{l: {v} for l, v in leaf_assignments.items()}`: each
assigned name is bound to the singleton of its state.  Later bindings for
a repeated name shadow earlier ones, as in a Python dict. -/
def seedDict (leaf_assignments : List (String × ℕ)) : Dict :=
  leaf_assignments.foldl (fun d p => (p.1, ({p.2} : Finset ℕ)) :: d) []

/-- One iteration of the post-order loop of `simple_parsimony`: leaves
are skipped; an internal node first has its child count asserted to be
exactly two, then both children's state sets are read from the dict
(`KeyError` when missing), intersected, and the intersection (or the
union when the intersection is empty) is bound to the node's name. -/
def fitchStep (d : Dict) (cnode : MTree) : Option Dict :=
  if cnode.is_leaf then some d
  else
    match cnode.children with
    | [c1, c2] =>
      match alookup d c1.id, alookup d c2.id with
      | some left, some right =>
        let state := left ∩ right
        some ((cnode.id, if state = ∅ then left ∪ right else state) :: d)
      | _, _ => none
    | _ => none

/-- Modelled from the spec: the right-combing binarisation of one child
list performed inside polytomy resolution — a node with more than two
(already resolved) children keeps its first child and pushes the rest
under a fresh, empty-mutation internal node (spec section 6:
resolve-polytomies mutates the tree to strictly bifurcating form; the
shape and naming of inserted nodes is the engine's choice and is not
observable by the claims settled here). -/
def buildBinary (i : String) (m : List Mut) : List MTree → MTree
  | [] => .node i m []
  | [c] => .node i m [c]
  | [c1, c2] => .node i m [c1, c2]
  | c1 :: c2 :: c3 :: rest => .node i m [c1, buildBinary (i ++ "_poly") [] (c2 :: c3 :: rest)]

mutual
/-- Modelled from the spec: `resolve_all_polytomies`, the external engine
operation invoked first by `simple_parsimony` (mat.pyx line 330), which
splits every node with more than two children into a chain of bifurcations
and leaves other nodes alone. -/
def resolve_all_polytomies : MTree → MTree
  | .node i m cs => buildBinary i m (resolveList cs)

/-- `resolve_all_polytomies` applied to each sibling subtree. -/
def resolveList : List MTree → List MTree
  | [] => []
  | c :: cs => resolve_all_polytomies c :: resolveList cs
end

/-- Embedding of `simple_parsimony`: resolve polytomies, seed the dict
from the leaf assignments, then fold the post-order loop (the reversed
pre-order expansion).  The state-passing result pairs the tree that
`self.t` holds afterwards with the returned dict; `none` is a raised
`AssertionError` or `KeyError`. -/
def simple_parsimony (t : MTree) (leaf_assignments : List (String × ℕ)) :
    Option (MTree × Dict) :=
  let t2 := resolve_all_polytomies t
  ((dfe t2).reverse.foldlM fitchStep (seedDict leaf_assignments)).map (fun d => (t2, d))

/-- Specification-side Fitch recursion used to reason about the loop of
`simple_parsimony`: the state set a subtree's root receives, `none` when
the loop would raise on this subtree or leave its root unbound. -/
def fitchVal (sd : Dict) : MTree → Option (Finset ℕ)
  | .node i _ [] => alookup sd i
  | .node _ _ [c1, c2] => do
    let left ← fitchVal sd c1
    let right ← fitchVal sd c2
    pure (if left ∩ right = ∅ then left ∪ right else left ∩ right)
  | .node _ _ _ => none

/-- A tree is strictly bifurcating: every internal node has exactly two
children (the precondition named by spec section 4.5). -/
def binaryTree : MTree → Bool
  | .node _ _ [] => true
  | .node _ _ [c1, c2] => binaryTree c1 && binaryTree c2
  | .node _ _ _ => false

mutual
/-- Every node of the tree has either no children or at least two; such
trees are exactly those that polytomy resolution makes strictly
bifurcating. -/
def multiChild : MTree → Bool
  | .node _ _ cs => decide (cs.length ≠ 1) && multiChildList cs

/-- `multiChild` over a sibling list. -/
def multiChildList : List MTree → Bool
  | [] => true
  | c :: cs => multiChild c && multiChildList cs
end

/-! ## Lookup helpers for the haplotype table -/

/-- First-match lookup in the haplotype table. -/
def hlookup : List (List String × Nat) → List String → Option Nat
  | [], _ => none
  | (k, v) :: rest, x => if x = k then some v else hlookup rest x

/-- The count stored for a key of the haplotype table, zero when the key
is absent. -/
def countAt (d : List (List String × Nat)) (k : List String) : Nat :=
  (hlookup d k).getD 0

/-! ## Concrete inputs used by witnesses and counterexamples -/

/-- A tree whose root is a polytomy with three leaf children. -/
def tPoly : MTree :=
  .node "r" [] [.node "a" [] [], .node "b" [] [], .node "c" [] []]

/-- Leaf assignments covering the three leaves of `tPoly`. -/
def laPoly : List (String × ℕ) := [("a", 0), ("b", 1), ("c", 0)]

/-- A strictly bifurcating tree: one root with two leaves. -/
def tBin : MTree := .node "p" [] [.node "x" [] [], .node "y" [] []]

/-- Leaf assignments for `tBin` giving the two leaves disjoint states. -/
def laBin : List (String × ℕ) := [("x", 0), ("y", 1)]

/-- A concrete mutation: reference A, position 5, mutant T. -/
def mutA5T : Mut := { position := 5, ref_nuc := 1, par_nuc := 1, mut_nuc := 8 }

/-- A two-leaf tree whose leaves' divergence sets differ at exactly one
position: one leaf carries `A5T`, the other nothing. -/
def tTwoLeaf : MTree :=
  .node "root" [] [.node "s1" [mutA5T] [], .node "s2" [] []]

/-- A single node carrying one mutation. -/
def tOneMut : MTree := .node "s" [mutA5T] []

/-- A tree with a single (leaf) node and no mutations. -/
def tOneLeaf : MTree := .node "x" [] []

/-- The dict `simple_parsimony` computes on `tBin` with `laBin`: the two
leaf seeds and the root's inferred union state. -/
def dBinOut : Dict := [("p", {0, 1}), ("y", {1}), ("x", {0})]

/-- A concrete mutation: reference A, position 1, mutant T. -/
def mutA1T : Mut := { position := 1, ref_nuc := 1, par_nuc := 1, mut_nuc := 8 }

/-- A concrete mutation: reference C, position 5, mutant G. -/
def mutC5G : Mut := { position := 5, ref_nuc := 2, par_nuc := 2, mut_nuc := 4 }

/-- A tree whose two leaves carry the same divergence set {A1T, C5G},
accumulated in opposite orders along their root paths. -/
def tTwoOrder : MTree :=
  .node "r" [] [.node "i1" [mutA1T] [.node "L1" [mutC5G] []],
    .node "i2" [mutC5G] [.node "L2" [mutA1T] []]]

/-! ## Predicates used by the claim statements -/

/-- The invariant `accumulate_mutations` maintains on its running set:
every member is a plausible canonical string (length at least two) and no
member's reciprocal is also a member unless the two coincide. -/
def DiffInv (S : List String) : Prop :=
  (∀ m ∈ S, 2 ≤ m.length) ∧ ∀ m ∈ S, oppo m ∈ S → oppo m = m

/-- The key each leaf record contributes to the haplotype table. -/
def leafKey (q : String × List (List String)) : List String :=
  sortedKey (accumulate_mutations q.2)

/-- Fitch consistency of a dict over a node list: every internal node has
exactly two children, both children's state sets are bound, and the
node's own binding is their intersection when non-empty and their union
otherwise. -/
def FitchAll (dct : Dict) (ns : List MTree) : Prop :=
  ∀ n ∈ ns, n.is_leaf = false → ∃ c1 c2 left right, n.children = [c1, c2] ∧
    alookup dct c1.id = some left ∧ alookup dct c2.id = some right ∧
    alookup dct n.id = some (if left ∩ right = ∅ then left ∪ right else left ∩ right)

/-! ## Mutation codec lemmas -/

theorem complement_complement (x : Int) : complement (complement x) = x := by
  unfold complement
  split_ifs <;> omega

theorem revMut_revMut (L : Int) (m : Mut) : revMut L (revMut L m) = m := by
  cases m
  simp [revMut, complement_complement]
  omega

/-! ## Strand-reverser lemmas -/

mutual
theorem reverse_strand_involutive : ∀ (t : MTree) (L : Int),
    reverse_strand (reverse_strand t L) L = t
  | .node i m cs, L => by
    simp only [reverse_strand, List.map_map, MTree.node.injEq, true_and]
    constructor
    · rw [show (revMut L ∘ revMut L) = id from funext fun x => revMut_revMut L x]
      exact List.map_id m
    · exact reverse_strandList_involutive cs L

theorem reverse_strandList_involutive : ∀ (cs : List MTree) (L : Int),
    reverse_strandList (reverse_strandList cs L) L = cs
  | [], _ => rfl
  | c :: cs, L => by
    simp only [reverse_strandList, List.cons.injEq]
    exact ⟨reverse_strand_involutive c L, reverse_strandList_involutive cs L⟩
end

mutual
theorem dfe_reverse_strand : ∀ (t : MTree) (L : Int),
    dfe (reverse_strand t L) = (dfe t).map (reverse_strand · L)
  | .node i m cs, L => by
    simp only [reverse_strand, dfe, List.map_cons]
    exact congrArg _ (dfeList_reverse_strand cs L)

theorem dfeList_reverse_strand : ∀ (cs : List MTree) (L : Int),
    dfeList (reverse_strandList cs L) = (dfeList cs).map (reverse_strand · L)
  | [], _ => rfl
  | c :: cs, L => by
    simp only [reverse_strandList, dfeList, List.map_append]
    rw [dfe_reverse_strand c L, dfeList_reverse_strand cs L]
end

theorem id_reverse_strand (t : MTree) (L : Int) : (reverse_strand t L).id = t.id := by
  cases t; rfl

theorem allIds_reverse_strand (t : MTree) (L : Int) :
    allIds (reverse_strand t L) = allIds t := by
  unfold allIds
  rw [dfe_reverse_strand, List.map_map]
  exact List.map_congr_left fun n _ => id_reverse_strand n L

mutual
theorem leafIds_reverse_strand : ∀ (t : MTree) (L : Int),
    leafIds (reverse_strand t L) = leafIds t
  | .node i m [], L => rfl
  | .node i m (c :: cs), L => by
    simp only [reverse_strand, reverse_strandList, leafIds]
    rw [leafIds_reverse_strand c L, leafIdsList_reverse_strand cs L]

theorem leafIdsList_reverse_strand : ∀ (cs : List MTree) (L : Int),
    leafIdsList (reverse_strandList cs L) = leafIdsList cs
  | [], _ => rfl
  | c :: cs, L => by
    simp only [reverse_strandList, leafIdsList]
    rw [leafIds_reverse_strand c L, leafIdsList_reverse_strand cs L]
end

theorem leafCount_reverse_strand (t : MTree) (L : Int) :
    leafCount (reverse_strand t L) = leafCount t := by
  unfold leafCount
  rw [leafIds_reverse_strand]

theorem map_id_reverse_strandList (cs : List MTree) (L : Int) :
    (reverse_strandList cs L).map MTree.id = cs.map MTree.id := by
  induction cs with
  | nil => rfl
  | cons c cs ih =>
    simp only [reverse_strandList, List.map_cons, List.cons.injEq]
    exact ⟨id_reverse_strand c L, ih⟩

/-- C6. Applying `reverse_strand` twice with the same genome length `L`
restores the tree exactly (every node's mutation list, with its order),
and neither the first nor the second application changes the node
identifiers (in traversal order), the per-node child structure, or the
leaf count. -/
theorem reverse_strand_roundtrip (t : MTree) (L : Int) (hL : 0 < L) :
    reverse_strand (reverse_strand t L) L = t ∧
    allIds (reverse_strand t L) = allIds t ∧
    (dfe (reverse_strand t L)).map (fun n => n.children.map MTree.id) =
      (dfe t).map (fun n => n.children.map MTree.id) ∧
    leafCount (reverse_strand t L) = leafCount t ∧
    allIds (reverse_strand (reverse_strand t L) L) = allIds (reverse_strand t L) ∧
    leafCount (reverse_strand (reverse_strand t L) L) = leafCount (reverse_strand t L) := by
  refine ⟨reverse_strand_involutive t L, allIds_reverse_strand t L, ?_,
    leafCount_reverse_strand t L, allIds_reverse_strand _ L, leafCount_reverse_strand _ L⟩
  rw [dfe_reverse_strand, List.map_map]
  refine List.map_congr_left fun n _ => ?_
  cases n with
  | node i m cs =>
    simp only [Function.comp_apply, reverse_strand, MTree.children]
    exact map_id_reverse_strandList cs L

/-- Witness for C6 at the reference genome length and a concrete tree. -/
theorem reverse_strand_roundtrip_witness :
    (0 : Int) < 29903 ∧ reverse_strand (reverse_strand tTwoLeaf 29903) 29903 = tTwoLeaf :=
  ⟨by decide, (reverse_strand_roundtrip tTwoLeaf 29903 (by decide)).1⟩

/-! ## C3: reverse_strand performs no genome-length validation -/

/-- C3 counterexample: with genome length `0` (non-positive), the claim
says `reverse_strand` must fail before any in-place write, leaving every
node's mutation list as it was; instead the mutation lists are rewritten. -/
theorem reverse_strand_writes_on_nonpositive_length :
    (dfe (reverse_strand tOneMut 0)).map MTree.mutations ≠ (dfe tOneMut).map MTree.mutations := by
  decide

/-- C3 amended: `reverse_strand` validates nothing; for every genome
length, including non-positive ones, it rewrites every node's mutation
list with the complement/position transform (positions may then be
negative), raising no error. -/
theorem reverse_strand_no_validation (t : MTree) (L : Int) (hL : L ≤ 0) :
    (dfe (reverse_strand t L)).map MTree.mutations =
      (dfe t).map (fun n => n.mutations.map (revMut L)) := by
  rw [dfe_reverse_strand, List.map_map]
  refine List.map_congr_left fun n _ => ?_
  cases n; rfl

/-- Witness for C3 amended at genome length `0`. -/
theorem reverse_strand_no_validation_witness :
    (0 : Int) ≤ 0 ∧
      (dfe (reverse_strand tOneMut 0)).map MTree.mutations =
        (dfe tOneMut).map (fun n => n.mutations.map (revMut 0)) :=
  ⟨le_refl 0, reverse_strand_no_validation tOneMut 0 (le_refl 0)⟩

/-! ## C2: diversity estimator on degenerate leaf counts -/

/-- C2 counterexample: the empty tree (default `MATree()` engine tree) has
leaf count `0 ≤ 1`, yet `compute_nucleotide_diversity` returns the number
`0` (`0 * (0 / -1)`) rather than raising a degenerate-input error. -/
theorem diversity_returns_number_on_empty_tree :
    (leafData none).length = 0 ∧ compute_nucleotide_diversity none = some 0 := by
  constructor
  · rfl
  · simp [compute_nucleotide_diversity, count_haplotypes, leafData, sumVals, divSum]

/-- C2 amended: `compute_nucleotide_diversity` only fails for a tree with
exactly one leaf (the bias-correction denominator `total_seq - 1` is zero
and Python raises `ZeroDivisionError`); for zero leaves it silently
returns `0`. -/
theorem diversity_degenerate_cases (t : Option MTree) :
    ((leafData t).length = 1 → compute_nucleotide_diversity t = none) ∧
    ((leafData t).length = 0 → compute_nucleotide_diversity t = some 0) := by
  constructor
  · intro h1
    obtain ⟨x, hx⟩ := List.length_eq_one.mp h1
    have hct : count_haplotypes t = [(sortedKey (accumulate_mutations x.2), 1)] := by
      simp [count_haplotypes, hx, bump]
    simp [compute_nucleotide_diversity, hct, sumVals]
  · intro h0
    have hx : leafData t = [] := List.length_eq_zero.mp h0
    have hct : count_haplotypes t = [] := by simp [count_haplotypes, hx]
    simp [compute_nucleotide_diversity, hct, sumVals, divSum]

/-- Witness for C2 amended: a one-leaf tree makes the estimator fail. -/
theorem diversity_degenerate_cases_witness :
    (leafData (some tOneLeaf)).length = 1 ∧
      compute_nucleotide_diversity (some tOneLeaf) = none :=
  ⟨rfl, (diversity_degenerate_cases (some tOneLeaf)).1 rfl⟩

/-! ## C5: diff-engine cancellation invariant -/

theorem oppoL_oppoL (l : List Char) (hl : 2 ≤ l.length) : oppoL (oppoL l) = l := by
  match l with
  | [] => simp at hl
  | [c] => simp at hl
  | c :: d :: ds =>
    rcases (d :: ds).eq_nil_or_concat' with h | ⟨es, e, hes⟩
    · simp at h
    · rw [hes]
      have step1 : oppoL (c :: (es ++ [e])) = e :: (es ++ [c]) := by
        simp [oppoL, List.getLastD_concat, List.dropLast_concat]
      rw [step1]
      simp [oppoL, List.getLastD_concat, List.dropLast_concat]

theorem oppo_oppo (s : String) (hs : 2 ≤ s.length) : oppo (oppo s) = s := by
  have hlen : 2 ≤ s.toList.length := hs
  cases s with
  | mk data =>
    show String.mk (oppoL (String.mk (oppoL data)).toList) = String.mk data
    have : (String.mk (oppoL data)).toList = oppoL data := rfl
    rw [this, oppoL_oppoL data hlen]

theorem accStep_inv {S : List String} {mname : String}
    (hS : DiffInv S) (hm : 2 ≤ mname.length) : DiffInv (accStep S mname) := by
  obtain ⟨hlen, hrec⟩ := hS
  unfold accStep
  split_ifs with h1 h2
  · exact ⟨fun m hm2 => hlen m (List.mem_of_mem_erase hm2),
      fun m hm2 ho => hrec m (List.mem_of_mem_erase hm2) (List.mem_of_mem_erase ho)⟩
  · exact ⟨hlen, hrec⟩
  · constructor
    · intro m hm2
      rcases List.mem_append.mp hm2 with h | h
      · exact hlen m h
      · rw [List.mem_singleton.mp h]; exact hm
    · intro m hm2 ho
      rcases List.mem_append.mp hm2 with hmS | hmN
      · rcases List.mem_append.mp ho with hoS | hoN
        · exact hrec m hmS hoS
        · exfalso
          apply h1
          have hmn : oppo m = mname := List.mem_singleton.mp hoN
          have hoo : oppo (oppo m) = m := oppo_oppo m (hlen m hmS)
          rw [← hmn, hoo]
          exact hmS
      · have hmn : m = mname := List.mem_singleton.mp hmN
        rcases List.mem_append.mp ho with hoS | hoN
        · exact absurd (hmn ▸ hoS) h1
        · have : oppo m = mname := List.mem_singleton.mp hoN
          rw [this, hmn]

theorem foldl_accStep_inv (ms : List String) (S : List String)
    (hS : DiffInv S) (hms : ∀ s ∈ ms, 2 ≤ s.length) : DiffInv (ms.foldl accStep S) := by
  induction ms generalizing S with
  | nil => exact hS
  | cons m ms ih =>
    exact ih (accStep S m) (accStep_inv hS (hms m (List.mem_cons_self m ms)))
      (fun s hs => hms s (List.mem_cons_of_mem m hs))

/-- C5. For every root-to-sample path of canonical mutation strings, the
set produced by `accumulate_mutations` never contains a string together
with its distinct reciprocal. -/
theorem accumulate_mutations_no_reciprocal_pair (path : List (List String))
    (hpath : ∀ l ∈ path, ∀ s ∈ l, 2 ≤ s.length) (m : String) (hm : m ≠ oppo m) :
    ¬(m ∈ accumulate_mutations path ∧ oppo m ∈ accumulate_mutations path) := by
  have hinv : DiffInv (accumulate_mutations path) := by
    unfold accumulate_mutations
    have : ∀ (p : List (List String)) (S : List String), DiffInv S →
        (∀ l ∈ p, ∀ s ∈ l, 2 ≤ s.length) →
        DiffInv (p.foldl (fun allm ms => ms.foldl accStep allm) S) := by
      intro p
      induction p with
      | nil => intro S hS _; exact hS
      | cons l ls ih =>
        intro S hS hp
        exact ih _ (foldl_accStep_inv l S hS (hp l (by simp)))
          (fun l2 hl2 => hp l2 (by simp [hl2]))
    exact this path [] ⟨by simp, by simp⟩ hpath
  rintro ⟨h1, h2⟩
  exact hm ((hinv.2 m h1 h2).symm)

/-- Witness for C5: the spec's own example path, `A123T` followed later by
`T123A`; the divergence set cannot hold both strings, and indeed it is
empty, leaving no entry at position 123. -/
theorem accumulate_mutations_no_reciprocal_pair_witness :
    accumulate_mutations [["A123T"], ["T123A"]] = [] ∧
    ¬("A123T" ∈ accumulate_mutations [["A123T"], ["T123A"]] ∧
      oppo "A123T" ∈ accumulate_mutations [["A123T"], ["T123A"]]) :=
  ⟨rfl, accumulate_mutations_no_reciprocal_pair [["A123T"], ["T123A"]]
    (by decide) "A123T" (by decide)⟩

/-! ## C8 and C10: haplotype table lemmas -/

theorem sortedKey_perm {l1 l2 : List String} (h : l1.Perm l2) :
    sortedKey l1 = sortedKey l2 := by
  refine List.eq_of_perm_of_sorted ?_ (List.sorted_insertionSort _ l1)
    (List.sorted_insertionSort _ l2)
  exact ((List.perm_insertionSort _ l1).trans h).trans (List.perm_insertionSort _ l2).symm

theorem countAt_bump_self (d : List (List String × Nat)) (k : List String) :
    countAt (bump d k) k = countAt d k + 1 := by
  induction d with
  | nil => simp [bump, countAt, hlookup]
  | cons e rest ih =>
    obtain ⟨k', c⟩ := e
    by_cases hk : k' = k
    · subst hk
      simp [bump, countAt, hlookup]
    · simp only [bump, if_neg hk]
      have hne : k ≠ k' := fun h => hk h.symm
      simpa [countAt, hlookup, if_neg hne] using ih

theorem countAt_bump_other (d : List (List String × Nat)) (k k2 : List String)
    (hne : k2 ≠ k) : countAt (bump d k) k2 = countAt d k2 := by
  induction d with
  | nil => simp [bump, countAt, hlookup, if_neg hne]
  | cons e rest ih =>
    obtain ⟨k', c⟩ := e
    by_cases hk : k' = k
    · subst hk
      have hne2 : k2 ≠ k' := hne
      simp [bump, countAt, hlookup, if_neg hne2]
    · simp only [bump, if_neg hk]
      by_cases hk2 : k2 = k'
      · simp [countAt, hlookup, if_pos hk2]
      · simpa [countAt, hlookup, if_neg hk2] using ih

theorem countAt_fold (L : List (String × List (List String)))
    (d : List (List String × Nat)) (k : List String) :
    countAt (L.foldl (fun d q => bump d (leafKey q)) d) k =
      countAt d k + L.countP (fun q => decide (leafKey q = k)) := by
  induction L generalizing d with
  | nil => simp
  | cons q rest ih =>
    rw [List.foldl_cons, ih, List.countP_cons]
    by_cases hq : leafKey q = k
    · rw [hq, countAt_bump_self]
      simp
      omega
    · rw [countAt_bump_other d _ k (fun h => hq h.symm)]
      simp [hq]

theorem count_haplotypes_eq_fold (t : Option MTree) :
    count_haplotypes t = (leafData t).foldl (fun d q => bump d (leafKey q)) [] := rfl

/-- C8. Haplotype keying is order-independent: two leaves of the same
tree whose divergence sets hold the same elements (in any production
order) receive the same sorted table key, and the count stored at that
key is exactly the number of the tree's leaves sharing it, so both
leaves are counted in that single entry. -/
theorem count_haplotypes_order_independent (t : Option MTree)
    (s1 s2 : String) (p1 p2 : List (List String))
    (h1 : (s1, p1) ∈ leafData t) (h2 : (s2, p2) ∈ leafData t)
    (hperm : (accumulate_mutations p1).Perm (accumulate_mutations p2)) :
    sortedKey (accumulate_mutations p1) = sortedKey (accumulate_mutations p2) ∧
    countAt (count_haplotypes t) (sortedKey (accumulate_mutations p1)) =
      (leafData t).countP
        (fun q => decide (leafKey q = sortedKey (accumulate_mutations p1))) := by
  refine ⟨sortedKey_perm hperm, ?_⟩
  rw [count_haplotypes_eq_fold, countAt_fold]
  simp [countAt, hlookup]

/-- Witness for C8: the two leaves of `tTwoOrder` accumulate `{A1T, C5G}`
in opposite orders along their root paths, yet receive the same sorted
key and are counted in that key's single table entry. -/
theorem count_haplotypes_order_independent_witness :
    sortedKey (accumulate_mutations [[], ["A1T"], ["C5G"]]) =
      sortedKey (accumulate_mutations [[], ["C5G"], ["A1T"]]) ∧
    countAt (count_haplotypes (some tTwoOrder))
        (sortedKey (accumulate_mutations [[], ["A1T"], ["C5G"]])) =
      (leafData (some tTwoOrder)).countP
        (fun q => decide (leafKey q = sortedKey (accumulate_mutations [[], ["A1T"], ["C5G"]]))) :=
  count_haplotypes_order_independent (some tTwoOrder) "L1" "L2"
    [[], ["A1T"], ["C5G"]] [[], ["C5G"], ["A1T"]] (by decide) (by decide) (by decide)

theorem sumVals_bump (d : List (List String × Nat)) (k : List String) :
    sumVals (bump d k) = sumVals d + 1 := by
  induction d with
  | nil => simp [bump, sumVals]
  | cons e rest ih =>
    obtain ⟨k', c⟩ := e
    by_cases hk : k' = k
    · subst hk
      simp [bump, sumVals]
      omega
    · simp only [bump, if_neg hk]
      simp only [sumVals, List.map_cons, List.sum_cons] at ih ⊢
      omega

theorem bump_pos (d : List (List String × Nat)) (k : List String)
    (hd : ∀ e ∈ d, 1 ≤ e.2) : ∀ e ∈ bump d k, 1 ≤ e.2 := by
  induction d with
  | nil =>
    intro e he
    simp [bump] at he
    simp [he]
  | cons p rest ih =>
    obtain ⟨k', c⟩ := p
    intro e he
    by_cases hk : k' = k
    · subst hk
      simp only [bump, if_pos rfl] at he
      rcases List.mem_cons.mp he with h | h
      · subst h
        simp
      · exact hd e (List.mem_cons_of_mem _ h)
    · simp only [bump, if_neg hk] at he
      rcases List.mem_cons.mp he with h | h
      · subst h
        exact hd (k', c) (List.mem_cons_self _ _)
      · exact ih (fun e2 he2 => hd e2 (List.mem_cons_of_mem _ he2)) e h

/-- C10. Every haplotype count is at least one and the counts sum to the
number of leaf identifiers of the tree: each leaf is counted under
exactly one key. -/
theorem count_haplotypes_partition (t : Option MTree) :
    (∀ e ∈ count_haplotypes t, 1 ≤ e.2) ∧
    sumVals (count_haplotypes t) = (leafData t).length := by
  rw [count_haplotypes_eq_fold]
  have main : ∀ (L : List (String × List (List String))) (d : List (List String × Nat)),
      (∀ e ∈ d, 1 ≤ e.2) →
      (∀ e ∈ L.foldl (fun d q => bump d (leafKey q)) d, 1 ≤ e.2) ∧
      sumVals (L.foldl (fun d q => bump d (leafKey q)) d) = sumVals d + L.length := by
    intro L
    induction L with
    | nil => intro d hd; exact ⟨hd, by simp⟩
    | cons q rest ih =>
      intro d hd
      rw [List.foldl_cons]
      obtain ⟨hposr, hsumr⟩ := ih (bump d (leafKey q)) (bump_pos d _ hd)
      refine ⟨hposr, ?_⟩
      rw [hsumr, sumVals_bump]
      simp
      omega
  obtain ⟨hpos, hsum⟩ := main (leafData t) [] (by simp)
  exact ⟨hpos, by simpa [sumVals] using hsum⟩

/-! ## C9: diversity of a two-leaf tree with one difference -/

theorem count_differences_self (k : List String) : count_differences k k = 0 := by
  unfold count_differences
  have : k.countP (fun e => decide (e ∈ k)) = k.length :=
    List.countP_eq_length.mpr (fun a ha => by simpa using ha)
  simp [this]

theorem divTable_of_two_leaves (t : Option MTree) (s1 s2 : String)
    (p1 p2 : List (List String)) (hleaf : leafData t = [(s1, p1), (s2, p2)])
    (hne : leafKey (s1, p1) ≠ leafKey (s2, p2)) :
    count_haplotypes t = [(leafKey (s1, p1), 1), (leafKey (s2, p2), 1)] := by
  rw [count_haplotypes_eq_fold, hleaf]
  simp [bump, if_neg hne]

/-- C9. A tree with exactly two leaves whose divergence-set keys are at
pairwise distance one (as `count_differences` measures it, in either
order) has nucleotide diversity exactly one: distance 1 times 0.5 times
0.5, doubled over the two ordered pairs, times the 2/1 bias correction. -/
theorem diversity_two_leaf_one_diff (t : Option MTree) (s1 s2 : String)
    (p1 p2 : List (List String))
    (hleaf : leafData t = [(s1, p1), (s2, p2)])
    (h12 : count_differences (leafKey (s1, p1)) (leafKey (s2, p2)) = 1)
    (h21 : count_differences (leafKey (s2, p2)) (leafKey (s1, p1)) = 1) :
    compute_nucleotide_diversity t = some 1 := by
  have hne : leafKey (s1, p1) ≠ leafKey (s2, p2) := by
    intro h
    rw [h, count_differences_self] at h12
    exact absurd h12 (by decide)
  have hct := divTable_of_two_leaves t s1 s2 p1 p2 hleaf hne
  have hne2 : leafKey (s2, p2) ≠ leafKey (s1, p1) := fun h => hne h.symm
  unfold compute_nucleotide_diversity
  rw [hct]
  norm_num [sumVals, divSum, hne, hne2, h12, h21]

/-- Witness for C9 at the concrete two-leaf tree: the leaf carrying `A5T`
and the reference-identical leaf have divergence keys at distance one,
and the computed diversity is exactly one. -/
theorem diversity_two_leaf_one_diff_witness :
    compute_nucleotide_diversity (some tTwoLeaf) = some 1 :=
  diversity_two_leaf_one_diff (some tTwoLeaf) "s1" "s2" [[], ["A5T"]] [[], []]
    (by decide) (by decide) (by decide)

/-! ## Parsimony solver: structural lemmas -/

theorem allIds_node (i : String) (m : List Mut) (cs : List MTree) :
    allIds (.node i m cs) = i :: allIdsList cs := by
  simp [allIds, allIdsList, dfe, MTree.id]

theorem allIdsList_cons (c : MTree) (cs : List MTree) :
    allIdsList (c :: cs) = allIds c ++ allIdsList cs := by
  simp [allIdsList, allIds, dfeList]

theorem self_mem_dfe (t : MTree) : t ∈ dfe t := by
  cases t
  simp [dfe]

theorem dfe_mem_dfeList {c : MTree} {cs : List MTree} (h : c ∈ cs) {n : MTree}
    (hn : n ∈ dfe c) : n ∈ dfeList cs := by
  induction cs with
  | nil => cases h
  | cons c0 cs ih =>
    rcases List.mem_cons.mp h with h0 | h0
    · subst h0
      exact List.mem_append_left _ hn
    · exact List.mem_append_right _ (ih h0)

theorem self_mem_dfeList {c : MTree} {cs : List MTree} (h : c ∈ cs) : c ∈ dfeList cs :=
  dfe_mem_dfeList h (self_mem_dfe c)

mutual
theorem children_mem_dfe : ∀ (t : MTree), ∀ n ∈ dfe t, ∀ c ∈ n.children, c ∈ dfe t
  | .node i m cs => by
    intro n hn c hc
    rcases List.mem_cons.mp hn with h | h
    · subst h
      exact List.mem_cons_of_mem _ (self_mem_dfeList hc)
    · exact List.mem_cons_of_mem _ (children_mem_dfeList cs n h c hc)

theorem children_mem_dfeList : ∀ (cs : List MTree), ∀ n ∈ dfeList cs, ∀ c ∈ n.children,
    c ∈ dfeList cs
  | [] => by
    intro n hn
    simp [dfeList] at hn
  | c0 :: cs => by
    intro n hn c hc
    rcases List.mem_append.mp hn with h | h
    · exact List.mem_append_left _ (children_mem_dfe c0 n h c hc)
    · exact List.mem_append_right _ (children_mem_dfeList cs n h c hc)
end

theorem id_mem_allIds {t : MTree} {n : MTree} (h : n ∈ dfe t) : n.id ∈ allIds t :=
  List.mem_map_of_mem _ h

theorem id_mem_allIdsList {cs : List MTree} {n : MTree} (h : n ∈ dfeList cs) :
    n.id ∈ allIdsList cs :=
  List.mem_map_of_mem _ h

mutual
theorem leafIds_subset_allIds : ∀ (t : MTree), ∀ x ∈ leafIds t, x ∈ allIds t
  | .node i m [] => by
    intro x hx
    simp only [leafIds, List.mem_singleton] at hx
    subst hx
    simp [allIds, dfe, MTree.id]
  | .node i m (c :: cs) => by
    intro x hx
    rw [allIds_node]
    exact List.mem_cons_of_mem _ (leafIdsList_subset_allIdsList (c :: cs) x hx)

theorem leafIdsList_subset_allIdsList : ∀ (cs : List MTree), ∀ x ∈ leafIdsList cs,
    x ∈ allIdsList cs
  | [] => by
    intro x hx
    simp [leafIdsList] at hx
  | c :: cs => by
    intro x hx
    rw [allIdsList_cons]
    rcases List.mem_append.mp hx with h | h
    · exact List.mem_append_left _ (leafIds_subset_allIds c x h)
    · exact List.mem_append_right _ (leafIdsList_subset_allIdsList cs x h)
end

mutual
theorem internalIds_subset_allIds : ∀ (t : MTree), ∀ x ∈ internalIds t, x ∈ allIds t
  | .node i m [] => by
    intro x hx
    simp [internalIds] at hx
  | .node i m (c :: cs) => by
    intro x hx
    rw [allIds_node]
    rcases List.mem_cons.mp hx with h | h
    · subst h
      exact List.mem_cons_self _ _
    · exact List.mem_cons_of_mem _ (internalIdsList_subset_allIdsList (c :: cs) x h)

theorem internalIdsList_subset_allIdsList : ∀ (cs : List MTree), ∀ x ∈ internalIdsList cs,
    x ∈ allIdsList cs
  | [] => by
    intro x hx
    simp [internalIdsList] at hx
  | c :: cs => by
    intro x hx
    rw [allIdsList_cons]
    rcases List.mem_append.mp hx with h | h
    · exact List.mem_append_left _ (internalIds_subset_allIds c x h)
    · exact List.mem_append_right _ (internalIdsList_subset_allIdsList cs x h)
end

mutual
theorem perm_leaf_internal : ∀ (t : MTree), (leafIds t ++ internalIds t).Perm (allIds t)
  | .node i m [] => by
    simp [leafIds, internalIds, allIds, dfe, dfeList, MTree.id]
  | .node i m (c :: cs) => by
    have hl : leafIds (.node i m (c :: cs)) = leafIdsList (c :: cs) := by
      simp [leafIds, leafIdsList]
    have hi : internalIds (.node i m (c :: cs)) = i :: internalIdsList (c :: cs) := by
      simp [internalIds]
    rw [hl, hi, allIds_node]
    have h1 : (leafIdsList (c :: cs) ++ i :: internalIdsList (c :: cs)).Perm
        (i :: (leafIdsList (c :: cs) ++ internalIdsList (c :: cs))) := List.perm_middle
    exact h1.trans (List.Perm.cons i (perm_leaf_internal_list (c :: cs)))

theorem perm_leaf_internal_list : ∀ (cs : List MTree),
    (leafIdsList cs ++ internalIdsList cs).Perm (allIdsList cs)
  | [] => by simp [leafIdsList, internalIdsList, allIdsList, dfeList]
  | c :: cs => by
    have hl : leafIdsList (c :: cs) = leafIds c ++ leafIdsList cs := by
      simp [leafIdsList]
    have hi : internalIdsList (c :: cs) = internalIds c ++ internalIdsList cs := by
      simp [internalIdsList]
    rw [hl, hi, allIdsList_cons]
    have hshuffle : ((leafIds c ++ leafIdsList cs) ++ (internalIds c ++ internalIdsList cs)).Perm
        ((leafIds c ++ internalIds c) ++ (leafIdsList cs ++ internalIdsList cs)) := by
      have hmid : (leafIdsList cs ++ (internalIds c ++ internalIdsList cs)).Perm
          (internalIds c ++ (leafIdsList cs ++ internalIdsList cs)) := by
        have ha : leafIdsList cs ++ (internalIds c ++ internalIdsList cs) =
            (leafIdsList cs ++ internalIds c) ++ internalIdsList cs :=
          (List.append_assoc _ _ _).symm
        have hb : ((leafIdsList cs ++ internalIds c) ++ internalIdsList cs).Perm
            ((internalIds c ++ leafIdsList cs) ++ internalIdsList cs) :=
          List.Perm.append_right _ List.perm_append_comm
        have hc : (internalIds c ++ leafIdsList cs) ++ internalIdsList cs =
            internalIds c ++ (leafIdsList cs ++ internalIdsList cs) :=
          List.append_assoc _ _ _
        rw [ha, ← hc]
        exact hb
      have h2 : (leafIds c ++ (leafIdsList cs ++ (internalIds c ++ internalIdsList cs))).Perm
          (leafIds c ++ (internalIds c ++ (leafIdsList cs ++ internalIdsList cs))) :=
        List.Perm.append_left _ hmid
      simpa [List.append_assoc] using h2
    exact hshuffle.trans
      (List.Perm.append (perm_leaf_internal c) (perm_leaf_internal_list cs))
end

theorem leaf_notin_internal {t : MTree} (hnd : (allIds t).Nodup) {x : String}
    (hx : x ∈ leafIds t) : x ∉ internalIds t := by
  have hnd2 : (leafIds t ++ internalIds t).Nodup :=
    (List.Perm.nodup_iff (perm_leaf_internal t)).mpr hnd
  exact fun hi => List.disjoint_of_nodup_append hnd2 hx hi

theorem leaf_notin_internal_list {cs : List MTree} (hnd : (allIdsList cs).Nodup) {x : String}
    (hx : x ∈ leafIdsList cs) : x ∉ internalIdsList cs := by
  have hnd2 : (leafIdsList cs ++ internalIdsList cs).Nodup :=
    (List.Perm.nodup_iff (perm_leaf_internal_list cs)).mpr hnd
  exact fun hi => List.disjoint_of_nodup_append hnd2 hx hi

theorem leafIds_of_leaf {c : MTree} (h : c.is_leaf = true) : leafIds c = [c.id] := by
  cases c with
  | node i m cs =>
    have : cs = [] := List.isEmpty_iff.mp h
    subst this
    rfl

theorem mem_leafIdsList_of_mem {c : MTree} {cs : List MTree} (h : c ∈ cs) {x : String}
    (hx : x ∈ leafIds c) : x ∈ leafIdsList cs := by
  induction cs with
  | nil => cases h
  | cons c0 cs ih =>
    have hl : leafIdsList (c0 :: cs) = leafIds c0 ++ leafIdsList cs := rfl
    rw [hl]
    rcases List.mem_cons.mp h with h0 | h0
    · subst h0
      exact List.mem_append_left _ hx
    · exact List.mem_append_right _ (ih h0)

/-! ## Parsimony solver: dict lemmas -/

theorem alookup_append_not_mem (es d : Dict) (x : String)
    (hx : ∀ p ∈ es, p.1 ≠ x) : alookup (es ++ d) x = alookup d x := by
  induction es with
  | nil => rfl
  | cons e es ih =>
    obtain ⟨k, v⟩ := e
    have hk : x ≠ k := fun h => hx (k, v) (List.mem_cons_self _ _) h.symm
    simp only [List.cons_append, alookup, if_neg hk]
    exact ih (fun p hp => hx p (List.mem_cons_of_mem _ hp))

theorem FitchAll_append (es2 dct : Dict) (ns : List MTree)
    (hclosed : ∀ n ∈ ns, ∀ c ∈ n.children, c ∈ ns)
    (hdisj : ∀ p ∈ es2, ∀ n ∈ ns, p.1 ≠ n.id)
    (hfa : FitchAll dct ns) : FitchAll (es2 ++ dct) ns := by
  intro n hn hleaf
  obtain ⟨c1, c2, left, right, hch, h1, h2, h3⟩ := hfa n hn hleaf
  have hc1 : c1 ∈ ns := hclosed n hn c1 (by rw [hch]; simp)
  have hc2 : c2 ∈ ns := hclosed n hn c2 (by rw [hch]; simp)
  refine ⟨c1, c2, left, right, hch, ?_, ?_, ?_⟩
  · rw [alookup_append_not_mem es2 dct _ (fun p hp => hdisj p hp c1 hc1)]
    exact h1
  · rw [alookup_append_not_mem es2 dct _ (fun p hp => hdisj p hp c2 hc2)]
    exact h2
  · rw [alookup_append_not_mem es2 dct _ (fun p hp => hdisj p hp n hn)]
    exact h3

theorem fitchStep_leaf {d : Dict} {t : MTree} (h : t.is_leaf = true) :
    fitchStep d t = some d := by
  simp [fitchStep, h]

/-! ## Parsimony solver: small equations -/

theorem id_node (i : String) (m : List Mut) (cs : List MTree) :
    (MTree.node i m cs).id = i := rfl

theorem children_node (i : String) (m : List Mut) (cs : List MTree) :
    (MTree.node i m cs).children = cs := rfl

theorem is_leaf_nil (i : String) (m : List Mut) :
    (MTree.node i m []).is_leaf = true := rfl

theorem is_leaf_cons (i : String) (m : List Mut) (c : MTree) (cs : List MTree) :
    (MTree.node i m (c :: cs)).is_leaf = false := rfl

theorem dfe_node (i : String) (m : List Mut) (cs : List MTree) :
    dfe (.node i m cs) = .node i m cs :: dfeList cs := by
  simp [dfe]

theorem dfeList_cons (c : MTree) (cs : List MTree) :
    dfeList (c :: cs) = dfe c ++ dfeList cs := by
  simp [dfeList]

theorem leafIds_node_cons (i : String) (m : List Mut) (c : MTree) (cs : List MTree) :
    leafIds (.node i m (c :: cs)) = leafIdsList (c :: cs) := by
  simp [leafIds, leafIdsList]

theorem internalIds_node_cons (i : String) (m : List Mut) (c : MTree) (cs : List MTree) :
    internalIds (.node i m (c :: cs)) = i :: internalIdsList (c :: cs) := by
  simp [internalIds]

theorem internalIdsList_cons (c : MTree) (cs : List MTree) :
    internalIdsList (c :: cs) = internalIds c ++ internalIdsList cs := by
  simp [internalIdsList]

theorem leafIdsList_cons (c : MTree) (cs : List MTree) :
    leafIdsList (c :: cs) = leafIds c ++ leafIdsList cs := by
  simp [leafIdsList]

theorem dfe_of_leaf {t : MTree} (h : t.is_leaf = true) : dfe t = [t] := by
  cases t with
  | node i m cs =>
    have : cs = [] := List.isEmpty_iff.mp h
    subst this
    simp [dfe, dfeList]

theorem fitchVal_leaf {sd : Dict} {t : MTree} (h : t.is_leaf = true) :
    fitchVal sd t = alookup sd t.id := by
  cases t with
  | node i m cs =>
    have : cs = [] := List.isEmpty_iff.mp h
    subst this
    simp [fitchVal, id_node]

mutual
theorem fitch_run_tree (sd : Dict) : ∀ (t : MTree) (d : Dict),
    (∀ x ∈ leafIds t, alookup d x = alookup sd x) →
    (allIds t).Nodup →
    (∀ v, fitchVal sd t = some v →
      ∃ es : Dict, (dfe t).reverse.foldlM fitchStep d = some (es ++ d) ∧
        (∀ p ∈ es, p.1 ∈ internalIds t) ∧
        alookup (es ++ d) t.id = some v ∧
        FitchAll (es ++ d) (dfe t)) ∧
    (t.is_leaf = false → fitchVal sd t = none →
      (dfe t).reverse.foldlM fitchStep d = none)
  | .node i m [], d => fun h1 _h2 => by
    constructor
    · intro v hv
      simp only [fitchVal] at hv
      refine ⟨[], ?_, by simp, ?_, ?_⟩
      · rw [dfe_node]
        simp [dfeList, List.foldlM, fitchStep_leaf (is_leaf_nil i m)]
      · simp only [List.nil_append, id_node]
        rw [h1 i (by simp [leafIds])]
        exact hv
      · intro n hn hnl
        rw [dfe_node] at hn
        simp only [dfeList] at hn
        rcases List.mem_cons.mp hn with h | h
        · subst h
          simp [is_leaf_nil] at hnl
        · simp at h
    · intro hleaf _
      simp [is_leaf_nil] at hleaf
  | .node i m [c1, c2], d => fun h1 h2 => by
    have h1L : ∀ x ∈ leafIdsList [c1, c2], alookup d x = alookup sd x := fun x hx =>
      h1 x (by rw [leafIds_node_cons]; exact hx)
    have h2L : (allIdsList [c1, c2]).Nodup := by
      rw [allIds_node] at h2
      exact (List.nodup_cons.mp h2).2
    have hinotin : i ∉ allIdsList [c1, c2] := by
      rw [allIds_node] at h2
      exact (List.nodup_cons.mp h2).1
    have ihl := fitch_run_list sd [c1, c2] d h1L h2L
    have hc1mem : c1 ∈ [c1, c2] := by simp
    have hc2mem : c2 ∈ [c1, c2] := by simp
    have hc1id : c1.id ∈ allIdsList [c1, c2] := id_mem_allIdsList (self_mem_dfeList hc1mem)
    have hc2id : c2.id ∈ allIdsList [c1, c2] := id_mem_allIdsList (self_mem_dfeList hc2mem)
    have hc1ne : c1.id ≠ i := fun h => hinotin (h ▸ hc1id)
    have hc2ne : c2.id ≠ i := fun h => hinotin (h ▸ hc2id)
    have hfv : fitchVal sd (MTree.node i m [c1, c2]) =
        (fitchVal sd c1).bind (fun left => (fitchVal sd c2).bind (fun right =>
          some (if left ∩ right = ∅ then left ∪ right else left ∩ right))) := by
      simp [fitchVal]
    constructor
    · intro v hv
      rw [hfv] at hv
      rcases Option.bind_eq_some.mp hv with ⟨l, hl, hv2⟩
      rcases Option.bind_eq_some.mp hv2 with ⟨r, hr, hv3⟩
      have hveq : (if l ∩ r = ∅ then l ∪ r else l ∩ r) = v := Option.some.inj hv3
      have hoks : ∀ c ∈ [c1, c2], c.is_leaf = true ∨ (fitchVal sd c).isSome := by
        intro c hc
        rcases List.mem_cons.mp hc with h | h
        · subst h; right; rw [hl]; rfl
        · have hcc : c = c2 := by simpa using h
          subst hcc; right; rw [hr]; rfl
      obtain ⟨es0, hrun0, hids0, hlook0, hfa0⟩ := ihl.1 hoks
      have hlk1 : alookup (es0 ++ d) c1.id = some l := hlook0 c1 hc1mem l hl
      have hlk2 : alookup (es0 ++ d) c2.id = some r := hlook0 c2 hc2mem r hr
      have hstep : fitchStep (es0 ++ d) (MTree.node i m [c1, c2]) =
          some ((i, if l ∩ r = ∅ then l ∪ r else l ∩ r) :: (es0 ++ d)) := by
        simp [fitchStep, MTree.is_leaf, children_node, hlk1, hlk2, id_node]
      refine ⟨(i, if l ∩ r = ∅ then l ∪ r else l ∩ r) :: es0, ?_, ?_, ?_, ?_⟩
      · rw [dfe_node, List.reverse_cons, List.foldlM_append, hrun0]
        simp only [Option.some_bind, List.foldlM_cons, List.foldlM_nil, bind_pure,
          List.cons_append]
        exact hstep
      · intro p hp
        rcases List.mem_cons.mp hp with h | h
        · subst h
          rw [internalIds_node_cons]
          exact List.mem_cons_self _ _
        · rw [internalIds_node_cons]
          exact List.mem_cons_of_mem _ (hids0 p h)
      · rw [← hveq, List.cons_append, id_node]
        simp [alookup]
      · intro n hn hnl
        rw [dfe_node] at hn
        rcases List.mem_cons.mp hn with h | h
        · subst h
          refine ⟨c1, c2, l, r, children_node i m [c1, c2], ?_, ?_, ?_⟩
          · rw [List.cons_append]
            show alookup ((i, _) :: (es0 ++ d)) c1.id = some l
            simp [alookup, if_neg hc1ne, hlk1]
          · rw [List.cons_append]
            show alookup ((i, _) :: (es0 ++ d)) c2.id = some r
            simp [alookup, if_neg hc2ne, hlk2]
          · rw [List.cons_append, id_node]
            simp [alookup]
        · have hdisj1 : ∀ p ∈ [(i, if l ∩ r = ∅ then l ∪ r else l ∩ r)],
              ∀ n2 ∈ dfeList [c1, c2], p.1 ≠ n2.id := by
            intro p hp n2 hn2 heq
            have hpi : p.1 = i := by
              rcases List.mem_singleton.mp hp with h2
              rw [h2]
            rw [hpi] at heq
            exact hinotin (heq ▸ id_mem_allIdsList hn2)
          have hfa2 := FitchAll_append [(i, if l ∩ r = ∅ then l ∪ r else l ∩ r)]
            (es0 ++ d) (dfeList [c1, c2]) (children_mem_dfeList [c1, c2]) hdisj1 hfa0
          have heq2 : ((i, if l ∩ r = ∅ then l ∪ r else l ∩ r) :: es0) ++ d =
              [(i, if l ∩ r = ∅ then l ∪ r else l ∩ r)] ++ (es0 ++ d) := by
            simp
          rw [heq2]
          exact hfa2 n h hnl
    · intro _hleaf hnone
      rw [dfe_node, List.reverse_cons, List.foldlM_append]
      cases hl1 : fitchVal sd c1 with
      | none =>
        cases hc1l : c1.is_leaf with
        | false =>
          rw [ihl.2 ⟨c1, hc1mem, hc1l, hl1⟩]
          rfl
        | true =>
          by_cases hbad : ∃ c ∈ [c1, c2], c.is_leaf = false ∧ fitchVal sd c = none
          · rw [ihl.2 hbad]
            rfl
          · push_neg at hbad
            have hoks : ∀ c ∈ [c1, c2], c.is_leaf = true ∨ (fitchVal sd c).isSome := by
              intro c hc
              cases hcl2 : c.is_leaf with
              | true => exact Or.inl rfl
              | false => exact Or.inr (Option.ne_none_iff_isSome.mp (hbad c hc hcl2))
            obtain ⟨es0, hrun0, hids0, hlook0, hfa0⟩ := ihl.1 hoks
            rw [hrun0]
            have hc1leaf : c1.id ∈ leafIdsList [c1, c2] :=
              mem_leafIdsList_of_mem hc1mem (by rw [leafIds_of_leaf hc1l]; simp)
            have hnotin1 : ∀ p ∈ es0, p.1 ≠ c1.id := by
              intro p hp heq
              exact (leaf_notin_internal_list h2L hc1leaf) (heq ▸ hids0 p hp)
            have hlkc1 : alookup (es0 ++ d) c1.id = none := by
              rw [alookup_append_not_mem es0 d _ hnotin1, h1L c1.id hc1leaf,
                ← fitchVal_leaf hc1l]
              exact hl1
            simp only [Option.some_bind, List.foldlM_cons, List.foldlM_nil]
            simp [fitchStep, MTree.is_leaf, children_node, hlkc1]
      | some l =>
        cases hl2 : fitchVal sd c2 with
        | none =>
          cases hc2l : c2.is_leaf with
          | false =>
            rw [ihl.2 ⟨c2, hc2mem, hc2l, hl2⟩]
            rfl
          | true =>
            by_cases hbad : ∃ c ∈ [c1, c2], c.is_leaf = false ∧ fitchVal sd c = none
            · rw [ihl.2 hbad]
              rfl
            · push_neg at hbad
              have hoks : ∀ c ∈ [c1, c2], c.is_leaf = true ∨ (fitchVal sd c).isSome := by
                intro c hc
                cases hcl2 : c.is_leaf with
                | true => exact Or.inl rfl
                | false => exact Or.inr (Option.ne_none_iff_isSome.mp (hbad c hc hcl2))
              obtain ⟨es0, hrun0, hids0, hlook0, hfa0⟩ := ihl.1 hoks
              rw [hrun0]
              have hlk1 : alookup (es0 ++ d) c1.id = some l := hlook0 c1 hc1mem l hl1
              have hc2leaf : c2.id ∈ leafIdsList [c1, c2] :=
                mem_leafIdsList_of_mem hc2mem (by rw [leafIds_of_leaf hc2l]; simp)
              have hnotin2 : ∀ p ∈ es0, p.1 ≠ c2.id := by
                intro p hp heq
                exact (leaf_notin_internal_list h2L hc2leaf) (heq ▸ hids0 p hp)
              have hlkc2 : alookup (es0 ++ d) c2.id = none := by
                rw [alookup_append_not_mem es0 d _ hnotin2, h1L c2.id hc2leaf,
                  ← fitchVal_leaf hc2l]
                exact hl2
              simp only [Option.some_bind, List.foldlM_cons, List.foldlM_nil]
              simp [fitchStep, MTree.is_leaf, children_node, hlk1, hlkc2]
        | some r =>
          rw [hfv, hl1, hl2] at hnone
          simp at hnone
  | .node i m [c], d => fun h1 h2 => by
    constructor
    · intro v hv
      simp [fitchVal] at hv
    · intro _ _
      rw [dfe_node, List.reverse_cons, List.foldlM_append]
      cases hrun : (dfeList [c]).reverse.foldlM fitchStep d with
      | none => simp
      | some d2 =>
        simp [List.foldlM, fitchStep, MTree.is_leaf, children_node]
  | .node i m (c1 :: c2 :: c3 :: rest), d => fun h1 h2 => by
    constructor
    · intro v hv
      simp [fitchVal] at hv
    · intro _ _
      rw [dfe_node, List.reverse_cons, List.foldlM_append]
      cases hrun : (dfeList (c1 :: c2 :: c3 :: rest)).reverse.foldlM fitchStep d with
      | none => simp
      | some d2 =>
        simp [List.foldlM, fitchStep, MTree.is_leaf, children_node]

theorem fitch_run_list (sd : Dict) : ∀ (cs : List MTree) (d : Dict),
    (∀ x ∈ leafIdsList cs, alookup d x = alookup sd x) →
    (allIdsList cs).Nodup →
    ((∀ c ∈ cs, c.is_leaf = true ∨ (fitchVal sd c).isSome) →
      ∃ es : Dict, (dfeList cs).reverse.foldlM fitchStep d = some (es ++ d) ∧
        (∀ p ∈ es, p.1 ∈ internalIdsList cs) ∧
        (∀ c ∈ cs, ∀ v, fitchVal sd c = some v → alookup (es ++ d) c.id = some v) ∧
        FitchAll (es ++ d) (dfeList cs)) ∧
    ((∃ c ∈ cs, c.is_leaf = false ∧ fitchVal sd c = none) →
      (dfeList cs).reverse.foldlM fitchStep d = none)
  | [], d => fun _h1 _h2 => by
    constructor
    · intro _
      refine ⟨[], by simp [dfeList, List.foldlM], by simp, by simp, ?_⟩
      intro n hn
      simp [dfeList] at hn
    · rintro ⟨c, hc, _⟩
      simp at hc
  | c :: rest, d => fun h1 h2 => by
    have h1R : ∀ x ∈ leafIdsList rest, alookup d x = alookup sd x := fun x hx =>
      h1 x (by rw [leafIdsList_cons]; exact List.mem_append_right _ hx)
    have h2' := h2
    rw [allIdsList_cons] at h2'
    have h2R : (allIdsList rest).Nodup := h2'.of_append_right
    have h2C : (allIds c).Nodup := h2'.of_append_left
    have hdisj : (allIds c).Disjoint (allIdsList rest) := List.disjoint_of_nodup_append h2'
    have ihr := fitch_run_list sd rest d h1R h2R
    constructor
    · intro hoks
      have hoksR : ∀ c2 ∈ rest, c2.is_leaf = true ∨ (fitchVal sd c2).isSome :=
        fun c2 hc2 => hoks c2 (List.mem_cons_of_mem _ hc2)
      obtain ⟨es_r, hrunr, hidsr, hlookr, hfar⟩ := ihr.1 hoksR
      have hpresC : ∀ x ∈ leafIds c, alookup (es_r ++ d) x = alookup sd x := by
        intro x hx
        have hxall : x ∈ allIds c := leafIds_subset_allIds c x hx
        have hnot : ∀ p ∈ es_r, p.1 ≠ x := by
          intro p hp heq
          exact (hdisj hxall) (heq ▸ internalIdsList_subset_allIdsList rest p.1 (hidsr p hp))
        rw [alookup_append_not_mem es_r d x hnot]
        exact h1 x (by rw [leafIdsList_cons]; exact List.mem_append_left _ hx)
      cases hcl : c.is_leaf with
      | true =>
        refine ⟨es_r, ?_, ?_, ?_, ?_⟩
        · rw [dfeList_cons, List.reverse_append, List.foldlM_append, hrunr, dfe_of_leaf hcl]
          simp only [Option.some_bind, List.reverse_cons, List.reverse_nil, List.nil_append,
            List.foldlM_cons, List.foldlM_nil, fitchStep_leaf hcl, Option.some_bind]
          rfl
        · intro p hp
          rw [internalIdsList_cons]
          exact List.mem_append_right _ (hidsr p hp)
        · intro c2 hc2 v hv
          rcases List.mem_cons.mp hc2 with h | h
          · subst h
            rw [fitchVal_leaf hcl] at hv
            rw [hpresC c2.id (by rw [leafIds_of_leaf hcl]; simp)]
            exact hv
          · exact hlookr c2 h v hv
        · intro n hn hnl
          rw [dfeList_cons, dfe_of_leaf hcl] at hn
          rcases List.mem_append.mp hn with h | h
          · have hnc : n = c := by simpa using h
            subst hnc
            rw [hcl] at hnl
            simp at hnl
          · exact hfar n h hnl
      | false =>
        have hvs : (fitchVal sd c).isSome := by
          rcases hoks c (List.mem_cons_self _ _) with h | h
          · rw [hcl] at h
            simp at h
          · exact h
        obtain ⟨v, hv⟩ := Option.isSome_iff_exists.mp hvs
        have iht := fitch_run_tree sd c (es_r ++ d) hpresC h2C
        obtain ⟨es_c, hrunc, hidsc, hlookc, hfac⟩ := iht.1 v hv
        refine ⟨es_c ++ es_r, ?_, ?_, ?_, ?_⟩
        · rw [dfeList_cons, List.reverse_append, List.foldlM_append, hrunr]
          show (dfe c).reverse.foldlM fitchStep (es_r ++ d) = some (es_c ++ es_r ++ d)
          rw [hrunc, List.append_assoc]
        · intro p hp
          rw [internalIdsList_cons]
          rcases List.mem_append.mp hp with h | h
          · exact List.mem_append_left _ (hidsc p h)
          · exact List.mem_append_right _ (hidsr p h)
        · intro c2 hc2 v2 hv2
          rcases List.mem_cons.mp hc2 with h | h
          · subst h
            have hvv : v2 = v := by
              rw [hv] at hv2
              exact (Option.some.inj hv2).symm
            subst hvv
            rw [List.append_assoc]
            exact hlookc
          · have hnotc : ∀ p ∈ es_c, p.1 ≠ c2.id := by
              intro p hp heq
              have hpall : p.1 ∈ allIds c := internalIds_subset_allIds c p.1 (hidsc p hp)
              exact (hdisj hpall) (heq ▸ id_mem_allIdsList (self_mem_dfeList h))
            rw [List.append_assoc, alookup_append_not_mem es_c (es_r ++ d) _ hnotc]
            exact hlookr c2 h v2 hv2
        · intro n hn hnl
          rw [dfeList_cons] at hn
          rw [List.append_assoc]
          rcases List.mem_append.mp hn with h | h
          · exact hfac n h hnl
          · have hdisj2 : ∀ p ∈ es_c, ∀ n2 ∈ dfeList rest, p.1 ≠ n2.id := by
              intro p hp n2 hn2 heq
              exact (hdisj (internalIds_subset_allIds c p.1 (hidsc p hp)))
                (heq ▸ id_mem_allIdsList hn2)
            exact FitchAll_append es_c (es_r ++ d) (dfeList rest)
              (children_mem_dfeList rest) hdisj2 hfar n h hnl
    · rintro ⟨cbad, hcbadmem, hcbadleaf, hcbadnone⟩
      rcases List.mem_cons.mp hcbadmem with hb | hb
      · subst hb
        rw [dfeList_cons, List.reverse_append, List.foldlM_append]
        by_cases hbad2 : ∃ c2 ∈ rest, c2.is_leaf = false ∧ fitchVal sd c2 = none
        · rw [ihr.2 hbad2]
          rfl
        · push_neg at hbad2
          have hoksR : ∀ c2 ∈ rest, c2.is_leaf = true ∨ (fitchVal sd c2).isSome := by
            intro c2 hc2
            cases hcl2 : c2.is_leaf with
            | true => exact Or.inl rfl
            | false => exact Or.inr (Option.ne_none_iff_isSome.mp (hbad2 c2 hc2 hcl2))
          obtain ⟨es_r, hrunr, hidsr, hlookr, hfar⟩ := ihr.1 hoksR
          have hpresC : ∀ x ∈ leafIds cbad, alookup (es_r ++ d) x = alookup sd x := by
            intro x hx
            have hxall : x ∈ allIds cbad := leafIds_subset_allIds cbad x hx
            have hnot : ∀ p ∈ es_r, p.1 ≠ x := by
              intro p hp heq
              exact (hdisj hxall)
                (heq ▸ internalIdsList_subset_allIdsList rest p.1 (hidsr p hp))
            rw [alookup_append_not_mem es_r d x hnot]
            exact h1 x (by rw [leafIdsList_cons]; exact List.mem_append_left _ hx)
          have iht := fitch_run_tree sd cbad (es_r ++ d) hpresC h2C
          rw [hrunr]
          show (dfe cbad).reverse.foldlM fitchStep (es_r ++ d) = none
          exact iht.2 hcbadleaf hcbadnone
      · rw [dfeList_cons, List.reverse_append, List.foldlM_append,
          ihr.2 ⟨cbad, hb, hcbadleaf, hcbadnone⟩]
        rfl
end

/-! ## Resolution and binary-tree lemmas -/

theorem fitchVal_isSome_of_binary (sd : Dict) : ∀ (t : MTree), binaryTree t = true →
    (∀ x ∈ leafIds t, (alookup sd x).isSome) → (fitchVal sd t).isSome
  | .node i m [], _, hleaf => by
    simp only [fitchVal]
    exact hleaf i (by simp [leafIds])
  | .node i m [c1, c2], hb, hleaf => by
    simp only [binaryTree, Bool.and_eq_true] at hb
    have hleaf1 : ∀ x ∈ leafIds c1, (alookup sd x).isSome := by
      intro x hx
      refine hleaf x ?_
      rw [leafIds_node_cons, leafIdsList_cons]
      exact List.mem_append_left _ hx
    have hleaf2 : ∀ x ∈ leafIds c2, (alookup sd x).isSome := by
      intro x hx
      refine hleaf x ?_
      rw [leafIds_node_cons, leafIdsList_cons]
      refine List.mem_append_right _ ?_
      rw [leafIdsList_cons]
      exact List.mem_append_left _ hx
    obtain ⟨v1, hv1⟩ := Option.isSome_iff_exists.mp
      (fitchVal_isSome_of_binary sd c1 hb.1 hleaf1)
    obtain ⟨v2, hv2⟩ := Option.isSome_iff_exists.mp
      (fitchVal_isSome_of_binary sd c2 hb.2 hleaf2)
    simp [fitchVal, hv1, hv2]
  | .node i m [c], hb, _ => by
    simp [binaryTree] at hb
  | .node i m (c1 :: c2 :: c3 :: rest), hb, _ => by
    simp [binaryTree] at hb

theorem resolveList_length : ∀ (cs : List MTree), (resolveList cs).length = cs.length
  | [] => rfl
  | c :: cs => by
    simp [resolveList, resolveList_length cs]

theorem buildBinary_binary : ∀ (rs : List MTree) (i : String) (m : List Mut),
    2 ≤ rs.length → (∀ r ∈ rs, binaryTree r = true) →
    binaryTree (buildBinary i m rs) = true
  | [], _, _, h, _ => by simp at h
  | [c], _, _, h, _ => by simp at h
  | [c1, c2], i, m, _, hb => by
    simp only [buildBinary, binaryTree, Bool.and_eq_true]
    exact ⟨hb c1 (by simp), hb c2 (by simp)⟩
  | c1 :: c2 :: c3 :: rest, i, m, _, hb => by
    simp only [buildBinary, binaryTree, Bool.and_eq_true]
    refine ⟨hb c1 (by simp), ?_⟩
    refine buildBinary_binary (c2 :: c3 :: rest) (i ++ "_poly") [] (by simp) ?_
    intro r hr
    exact hb r (List.mem_cons_of_mem _ hr)

mutual
theorem resolve_binary : ∀ (t : MTree), multiChild t = true →
    binaryTree (resolve_all_polytomies t) = true
  | .node i m cs => fun hm => by
    simp only [multiChild, Bool.and_eq_true, decide_eq_true_eq] at hm
    obtain ⟨hlen, hml⟩ := hm
    cases cs with
    | nil =>
      simp [resolve_all_polytomies, resolveList, buildBinary, binaryTree]
    | cons c cs2 =>
      have h2 : 2 ≤ (c :: cs2).length := by
        simp only [List.length_cons] at hlen ⊢
        omega
      simp only [resolve_all_polytomies]
      refine buildBinary_binary _ i m ?_ ?_
      · rw [resolveList_length]
        exact h2
      · exact resolve_binary_list (c :: cs2) hml

theorem resolve_binary_list : ∀ (cs : List MTree), multiChildList cs = true →
    ∀ r ∈ resolveList cs, binaryTree r = true
  | [] => fun _ r hr => by simp [resolveList] at hr
  | c :: cs => fun hm r hr => by
    simp only [multiChildList, Bool.and_eq_true] at hm
    simp only [resolveList] at hr
    rcases List.mem_cons.mp hr with h | h
    · subst h
      exact resolve_binary c hm.1
    · exact resolve_binary_list cs hm.2 r h
end

theorem leafIds_buildBinary : ∀ (rs : List MTree), rs ≠ [] → ∀ (i : String) (m : List Mut),
    leafIds (buildBinary i m rs) = leafIdsList rs
  | [], h, _, _ => absurd rfl h
  | [c], _, i, m => by
    simp only [buildBinary]
    rw [leafIds_node_cons]
  | [c1, c2], _, i, m => by
    simp only [buildBinary]
    rw [leafIds_node_cons]
  | c1 :: c2 :: c3 :: rest, _, i, m => by
    simp only [buildBinary]
    rw [leafIds_node_cons, leafIdsList_cons, leafIdsList_cons]
    rw [leafIds_buildBinary (c2 :: c3 :: rest) (by simp) (i ++ "_poly") []]
    simp [leafIdsList_cons, leafIdsList]

mutual
theorem leafIds_resolve : ∀ (t : MTree),
    leafIds (resolve_all_polytomies t) = leafIds t
  | .node i m [] => by
    simp [resolve_all_polytomies, resolveList, buildBinary]
  | .node i m (c :: cs) => by
    simp only [resolve_all_polytomies, resolveList]
    rw [leafIds_buildBinary (resolve_all_polytomies c :: resolveList cs) (by simp) i m]
    rw [leafIdsList_cons, leafIds_resolve c, leafIdsList_resolveList cs, leafIds_node_cons,
      leafIdsList_cons]

theorem leafIdsList_resolveList : ∀ (cs : List MTree),
    leafIdsList (resolveList cs) = leafIdsList cs
  | [] => rfl
  | c :: cs => by
    simp only [resolveList]
    rw [leafIdsList_cons, leafIds_resolve c, leafIdsList_resolveList cs, leafIdsList_cons]
end

theorem resolve_id_of_binary : ∀ (t : MTree), binaryTree t = true →
    resolve_all_polytomies t = t
  | .node i m [], _ => by
    simp [resolve_all_polytomies, resolveList, buildBinary]
  | .node i m [c1, c2], hb => by
    simp only [binaryTree, Bool.and_eq_true] at hb
    simp only [resolve_all_polytomies, resolveList]
    rw [resolve_id_of_binary c1 hb.1, resolve_id_of_binary c2 hb.2]
    simp [buildBinary]
  | .node i m [c], hb => by
    simp [binaryTree] at hb
  | .node i m (c1 :: c2 :: c3 :: rest), hb => by
    simp [binaryTree] at hb

/-! ## C7: the Fitch rule holds in the returned mapping -/

/-- C7. In the mapping `simple_parsimony` returns (over the tree it
processed, which is the polytomy-resolved tree), every internal node has
exactly two children and its state set is the intersection of its
children's state sets when that intersection is non-empty, and their
union otherwise. -/
theorem simple_parsimony_fitch_rule (t : MTree) (la : List (String × ℕ))
    (t2 : MTree) (dct : Dict)
    (hnd : (allIds (resolve_all_polytomies t)).Nodup)
    (hrun : simple_parsimony t la = some (t2, dct)) :
    ∀ n ∈ dfe t2, n.is_leaf = false → ∃ c1 c2 left right, n.children = [c1, c2] ∧
      alookup dct c1.id = some left ∧ alookup dct c2.id = some right ∧
      alookup dct n.id = some
        (if left ∩ right = ∅ then left ∪ right else left ∩ right) := by
  unfold simple_parsimony at hrun
  rcases Option.map_eq_some'.mp hrun with ⟨d0, hd0, heq⟩
  injection heq with h1 h2
  subst h1
  subst h2
  have hmain := fitch_run_tree (seedDict la) (resolve_all_polytomies t) (seedDict la)
    (fun _ _ => rfl) hnd
  cases hl : (resolve_all_polytomies t).is_leaf with
  | true =>
    intro n hn hnl
    rw [dfe_of_leaf hl] at hn
    have : n = resolve_all_polytomies t := by simpa using hn
    subst this
    rw [hl] at hnl
    simp at hnl
  | false =>
    cases hfv : fitchVal (seedDict la) (resolve_all_polytomies t) with
    | none =>
      rw [hmain.2 hl hfv] at hd0
      simp at hd0
    | some v =>
      obtain ⟨es, hrun2, _, _, hfa⟩ := hmain.1 v hfv
      rw [hrun2] at hd0
      have : es ++ seedDict la = d0 := Option.some.inj hd0
      subst this
      exact hfa

/-- Witness for C7 at the concrete bifurcating tree `tBin`: the root of
the returned mapping carries the union of its leaves' disjoint states. -/
theorem simple_parsimony_fitch_rule_witness :
    ∃ c1 c2 left right, tBin.children = [c1, c2] ∧
      alookup dBinOut c1.id = some left ∧ alookup dBinOut c2.id = some right ∧
      alookup dBinOut tBin.id = some
        (if left ∩ right = ∅ then left ∪ right else left ∩ right) :=
  simple_parsimony_fitch_rule tBin laBin tBin dBinOut (by decide) (by rfl)
    tBin (self_mem_dfe tBin) rfl

/-! ## C1: polytomies do not make the solver fail -/

/-- C1 counterexample: `tPoly`'s root has three children, yet
`simple_parsimony` returns a result rather than failing — the solver
resolves polytomies before asserting the two-child precondition. -/
theorem simple_parsimony_returns_on_polytomy :
    tPoly.children.length = 3 ∧ (simple_parsimony tPoly laPoly).isSome = true := by
  constructor
  · rfl
  · rfl

/-- C1 amended: a tree whose every node has zero or at least two children
(polytomies allowed) never trips the two-children assertion: provided the
leaves are all assigned and identifiers are unique after resolution,
`simple_parsimony` returns a result.  The assertion can only fire for a
node left with a single child. -/
theorem simple_parsimony_succeeds_on_polytomies (t : MTree) (la : List (String × ℕ))
    (hmc : multiChild t = true)
    (hcov : ∀ x ∈ leafIds t, (alookup (seedDict la) x).isSome)
    (hnd : (allIds (resolve_all_polytomies t)).Nodup) :
    (simple_parsimony t la).isSome := by
  have hb : binaryTree (resolve_all_polytomies t) = true := resolve_binary t hmc
  have hcov2 : ∀ x ∈ leafIds (resolve_all_polytomies t), (alookup (seedDict la) x).isSome := by
    rw [leafIds_resolve t]
    exact hcov
  obtain ⟨v, hv⟩ := Option.isSome_iff_exists.mp
    (fitchVal_isSome_of_binary (seedDict la) (resolve_all_polytomies t) hb hcov2)
  obtain ⟨es, hrun, -, -, -⟩ := (fitch_run_tree (seedDict la) (resolve_all_polytomies t)
    (seedDict la) (fun _ _ => rfl) hnd).1 v hv
  unfold simple_parsimony
  show (Option.map (fun d => (resolve_all_polytomies t, d))
    ((dfe (resolve_all_polytomies t)).reverse.foldlM fitchStep (seedDict la))).isSome = true
  rw [hrun]
  rfl

/-- Witness for C1 amended at the three-leaf polytomy `tPoly`. -/
theorem simple_parsimony_succeeds_on_polytomies_witness :
    (simple_parsimony tPoly laPoly).isSome :=
  simple_parsimony_succeeds_on_polytomies tPoly laPoly (by decide) (by decide) (by decide)

/-! ## C4: simple_parsimony is not side-effect-free on the tree -/

/-- C4 counterexample: running `simple_parsimony` on the polytomy tree
changes the tree held by the object — the resolved tree has a new
internal node, so its identifier list differs from the input's. -/
theorem simple_parsimony_mutates_tree :
    (simple_parsimony tPoly laPoly).map (fun r => allIds r.1) ≠ some (allIds tPoly) := by
  decide

/-- C4 amended: `simple_parsimony` is side-effect-free on the tree only
when the tree is already strictly bifurcating — polytomy resolution is
then the identity, so the tree the object holds after a successful run
is exactly the input tree. -/
theorem simple_parsimony_preserves_binary_tree (t : MTree) (la : List (String × ℕ))
    (r : MTree × Dict) (hb : binaryTree t = true)
    (hrun : simple_parsimony t la = some r) : r.1 = t := by
  unfold simple_parsimony at hrun
  rw [resolve_id_of_binary t hb] at hrun
  rcases Option.map_eq_some'.mp hrun with ⟨d0, _, heq⟩
  rw [← heq]

/-- Witness for C4 amended at the bifurcating tree `tBin`. -/
theorem simple_parsimony_preserves_binary_tree_witness :
    binaryTree tBin = true ∧ (tBin, dBinOut).1 = tBin :=
  ⟨rfl, simple_parsimony_preserves_binary_tree tBin laBin (tBin, dBinOut) rfl (by rfl)⟩

end BTE
